import Mathlib

set_option linter.unnecessarySeqFocus false
set_option linter.unusedVariables false

/-!
Verification of the Firestore-backed LaunchDarkly persistent data store
(`ldfirestore`): a shallow embedding of the store implementation
(document identity scheme, size guard, optimistic upsert, reconciling
init, big segment store read path, builder/teardown) together with
proofs about the embedded definitions.

The remote Firestore collection is modelled as an association list from
document IDs to documents; a document is an association list from field
names to Firestore values.  Reachable-store executions are modelled as
pure functions on that state; transport failure is modelled explicitly
only where a claim is about it (`docRefGet`).  Go `map` iteration order
is commutative in every use below (sums, and sets of per-key operations
on distinct keys), so a fixed list order is a faithful embedding.
-/

set_option maxHeartbeats 1000000

namespace LDFirestore

/-- A Firestore field value, as far as this integration uses them:
strings, 64-bit integers, and arrays (the latter only in big segment
membership documents). -/
inductive FireValue where
  | str : String → FireValue
  | int : Int → FireValue
  | arr : List FireValue → FireValue

/-- A stored document: field name to value. -/
abbrev Doc := List (String × FireValue)

/-- The collection: document ID to document. -/
abbrev Store := List (String × Doc)

/-- Field names used by the primary data store (source: constants
`fieldNamespace` etc.). -/
def fieldNamespace : String := "namespace"

def fieldKey : String := "key"

def fieldVersion : String := "version"

def fieldItem : String := "item"

/-- Source: `firestoreMaxDocSize = 900000`. -/
def firestoreMaxDocSize : Nat := 900000

/-- Look up a field of a document. -/
def fieldOf (d : Doc) (f : String) : Option FireValue :=
  (d.find? (fun p => p.1 == f)).map Prod.snd

/-- Look up a document by ID (a found document corresponds to
`DocumentRef.Get` succeeding; absence corresponds to a NotFound error). -/
def getDoc (s : Store) (id : String) : Option Doc :=
  (s.find? (fun p => p.1 == id)).map Prod.snd

/-- Effect of a Firestore delete of a document ID. -/
def deleteDoc (s : Store) (id : String) : Store :=
  s.filter (fun p => p.1 != id)

/-- Effect of a Firestore `Set`, which replaces the whole document. -/
def setDoc (s : Store) (id : String) (d : Doc) : Store :=
  (id, d) :: deleteDoc s id

/-- `ldstoretypes.SerializedItemDescriptor`: a version plus the opaque
serialized payload (`[]byte`, always used via `string(...)` here). -/
structure SerializedItemDescriptor where
  Version : Int
  SerializedItem : String

/-- `SerializedItemDescriptor{}.NotFound()`: version -1, empty payload. -/
def notFoundDescriptor : SerializedItemDescriptor := ⟨-1, ""⟩

/-- `ldstoretypes.KeyedSerializedItemDescriptor`. -/
structure KeyedItem where
  Key : String
  Item : SerializedItemDescriptor

/-- `ldstoretypes.SerializedCollection`; a kind is identified by its
name string (`kind.GetName()`). -/
structure SerializedCollection where
  Kind : String
  Items : List KeyedItem

/-! ## Document identity scheme (source: part_000 lines 286-316) -/

/-- Source: `prefixedNamespace`: prepend the optional store prefix. -/
def prefixedNamespace (pfx baseNamespace : String) : String :=
  if pfx = "" then baseNamespace else pfx ++ ":" ++ baseNamespace

/-- Source: `namespaceForKind`. -/
def namespaceForKind (pfx kind : String) : String :=
  prefixedNamespace pfx kind

/-- Source: `initedKey`. -/
def initedKey (pfx : String) : String :=
  prefixedNamespace pfx "$inited"

/-- Source: `makeDocIDFromParts`: prefix:namespace:key (or namespace:key
with no prefix). -/
def makeDocIDFromParts (pfx ns key : String) : String :=
  if pfx = "" then ns ++ ":" ++ key else pfx ++ ":" ++ ns ++ ":" ++ key

/-- Source: `initedDocID`. -/
def initedDocID (pfx : String) : String :=
  makeDocIDFromParts pfx (initedKey pfx) (initedKey pfx)

/-- Source: `makeDocID` (primary store). -/
def makeDocID (pfx kind key : String) : String :=
  makeDocIDFromParts pfx (namespaceForKind pfx kind) key

/-! ## Size guard (source: `checkSizeLimit`, part_000 lines 379-398) -/

/-- The rough document size estimate computed inside `checkSizeLimit`:
field-name byte length, plus byte length of string values, plus a fixed
8 bytes for any non-string value.  (Go `len` on a string is its byte
length, hence `utf8ByteSize`.) -/
def estimatedDocSize (d : Doc) : Nat :=
  d.foldl
    (fun acc p =>
      acc + p.1.utf8ByteSize +
        (match p.2 with
          | FireValue.str s => s.utf8ByteSize
          | _ => 8))
    0

/-- Source: `checkSizeLimit`: true when the estimate fits under the
conservative limit (the oversize branch logs and returns false). -/
def checkSizeLimit (d : Doc) : Bool :=
  decide (estimatedDocSize d ≤ firestoreMaxDocSize)

/-! ## Primary store encoding and reads -/

/-- Source: `encodeItem`: fields namespace, key, version, item. -/
def encodeItem (pfx kind key : String) (item : SerializedItemDescriptor) : Doc :=
  [(fieldNamespace, FireValue.str (namespaceForKind pfx kind)),
   (fieldKey, FireValue.str key),
   (fieldVersion, FireValue.int item.Version),
   (fieldItem, FireValue.str item.SerializedItem)]

/-- Source: `decodeDocument`: Go type assertions with zero-value
fallbacks; a document decodes iff its key field is a nonempty string. -/
def decodeDocument (d : Doc) : Option (String × SerializedItemDescriptor) :=
  let key := match fieldOf d fieldKey with
    | some (FireValue.str s) => s
    | _ => ""
  let version : Int := match fieldOf d fieldVersion with
    | some (FireValue.int v) => v
    | _ => 0
  let itemJSON := match fieldOf d fieldItem with
    | some (FireValue.str s) => s
    | _ => ""
  if key = "" then none else some (key, ⟨version, itemJSON⟩)

/-- The boolean test performed by the Firestore query
`Where(fieldNamespace, "==", ns)`: typed equality, so only a string
field equal to `ns` matches. -/
def nsFieldEq (d : Doc) (ns : String) : Bool :=
  match fieldOf d fieldNamespace with
  | some (FireValue.str x) => x == ns
  | _ => false

/-- Source: `GetAll`: query by namespace field, decode each document,
append only the ones that decode (`ok`); undecodable documents are
skipped.  The only error path in the source is an iterator transport
failure, absent on a reachable store, so the result is always `ok`. -/
def GetAll (pfx : String) (s : Store) (kind : String) :
    Except String (List (String × SerializedItemDescriptor)) :=
  Except.ok
    ((s.filter (fun p => nsFieldEq p.2 (namespaceForKind pfx kind))).filterMap
      (fun p => decodeDocument p.2))

/-- Source: `Get`: a NotFound error from `docRef.Get` (and the
defensive `!doc.Exists()` branch) both yield the NotFound descriptor
with a nil error; a found document that fails to decode is an error. -/
def Get (pfx : String) (s : Store) (kind key : String) :
    Except String SerializedItemDescriptor :=
  match getDoc s (makeDocID pfx kind key) with
  | none => Except.ok notFoundDescriptor
  | some d =>
    match decodeDocument d with
    | some kd => Except.ok kd.2
    | none => Except.error ("invalid data for " ++ kind ++ " key " ++ key)

/-! ## Optimistic upsert (source: `Upsert`, part_000 lines 215-269) -/

/-- The stored version read inside the Upsert transaction: -1 when the
document does not exist (NotFound), else the int64 version field, with
the Go zero value 0 when the field is absent or not an integer. -/
def oldVersionIn (s : Store) (id : String) : Int :=
  match getDoc s id with
  | none => -1
  | some d =>
    match fieldOf d fieldVersion with
    | some (FireValue.int v) => v
    | _ => 0

/-- Source: `Upsert`.  Returns the resulting store, the applied flag,
and the error.  The internal `errVersionCheckFailed` sentinel is mapped
by the source to `(false, nil)`, which is what the version-conflict
branch returns here directly.  On a reachable store the transaction
commits, so the error is always `none`. -/
def Upsert (pfx : String) (s : Store) (kind key : String)
    (newItem : SerializedItemDescriptor) : Store × Bool × Option String :=
  let data := encodeItem pfx kind key newItem
  if !checkSizeLimit data then (s, false, none)
  else
    let docID := makeDocID pfx kind key
    if oldVersionIn s docID ≥ newItem.Version then (s, false, none)
    else (setDoc s docID data, true, none)

/-! ## Availability and readiness probes -/

/-- Transport-aware model of `DocumentRef.Get`: on an unreachable store
the call fails with a transport error; on a reachable store an absent
document yields a NotFound error (the behavior of the Go Firestore
client, relied on by `Get`, `Upsert` and `GetMetadata` in this source). -/
inductive FsError where
  | notFound
  | unavailable

def docRefGet (reachable : Bool) (s : Store) (id : String) : Except FsError Doc :=
  if !reachable then Except.error FsError.unavailable
  else
    match getDoc s id with
    | some d => Except.ok d
    | none => Except.error FsError.notFound

/-- Source: `IsInitialized`: `err == nil` for a Get of the inited doc. -/
def IsInitialized (reachable : Bool) (pfx : String) (s : Store) : Bool :=
  match docRefGet reachable s (initedDocID pfx) with
  | Except.ok _ => true
  | Except.error _ => false

/-- Source: `IsStoreAvailable`: the same `err == nil` test on the same
document (part_000 lines 273-279). -/
def IsStoreAvailable (reachable : Bool) (pfx : String) (s : Store) : Bool :=
  match docRefGet reachable s (initedDocID pfx) with
  | Except.ok _ => true
  | Except.error _ => false

/-! ## Reconciling initializer (source: `Init`, `readExistingDocIDs`,
`batchWriteOperations`) -/

/-- A BulkWriter operation enqueued by `Init` (source: `setOperation`,
`deleteOperation` in firestore_helpers.go). -/
inductive FsOp where
  | set : String → Doc → FsOp
  | del : String → FsOp

/-- Apply one enqueued operation to the store. -/
def applyOp (s : Store) (op : FsOp) : Store :=
  match op with
  | FsOp.set id d => setDoc s id d
  | FsOp.del id => deleteDoc s id

/-- Source: `batchWriteOperations`: all enqueued operations take effect
(BulkWriter batching/parallelism is observationally the same as
in-order application here because no two enqueued operations ever
target the same document ID with conflicting effects; program order is
used). -/
def applyOps (s : Store) (ops : List FsOp) : Store :=
  ops.foldl applyOp s

/-- The Go `map[string]bool` used for `unusedOldIDs`, as an association
list with unique keys; setting a key overwrites any previous entry. -/
def mapSet (m : List (String × Bool)) (k : String) (b : Bool) :
    List (String × Bool) :=
  (k, b) :: m.filter (fun p => p.1 != k)

def mapGet (m : List (String × Bool)) (k : String) : Option Bool :=
  (m.find? (fun p => p.1 == k)).map Prod.snd

/-- Source: `readExistingDocIDs`: for every supplied kind, query the
IDs of the documents whose namespace field equals that kind's
namespace, and record each as `true` (to delete unless reused). -/
def readExistingDocIDs (pfx : String) (s : Store)
    (newData : List SerializedCollection) : List (String × Bool) :=
  newData.foldl
    (fun m coll =>
      (s.filter (fun p => nsFieldEq p.2 (namespaceForKind pfx coll.Kind))).foldl
        (fun m p => mapSet m p.1 true) m)
    []

/-- One iteration of `Init`'s insert-or-update loop body: items that
pass the size guard are enqueued as sets and their IDs marked as still
in use (`false`); oversized items are skipped (`continue`). -/
def initItemStep (pfx kind : String)
    (acc : List FsOp × List (String × Bool)) (item : KeyedItem) :
    List FsOp × List (String × Bool) :=
  let docID := makeDocID pfx kind item.Key
  let data := encodeItem pfx kind item.Key item.Item
  if checkSizeLimit data then
    (acc.1 ++ [FsOp.set docID data], mapSet acc.2 docID false)
  else acc

/-- `Init`'s insert-or-update loop over all collections. -/
def initWritePass (pfx : String) (acc : List FsOp × List (String × Bool))
    (allData : List SerializedCollection) :
    List FsOp × List (String × Bool) :=
  allData.foldl (fun acc coll => coll.Items.foldl (initItemStep pfx coll.Kind) acc) acc

/-- The document written for the readiness sentinel (source: Init,
fields namespace and key both set to the inited key). -/
def initedData (pfx : String) : Doc :=
  [(fieldNamespace, FireValue.str (initedKey pfx)),
   (fieldKey, FireValue.str (initedKey pfx))]

/-- The full operation list `Init` enqueues: the set operations from
the write pass, then a delete for every still-unused previously
existing ID other than the inited document, then the sentinel write. -/
def initOps (pfx : String) (s : Store) (allData : List SerializedCollection) :
    List FsOp :=
  let unused0 := readExistingDocIDs pfx s allData
  let passRes := initWritePass pfx ([], unused0) allData
  let initedID := initedDocID pfx
  let delOps := (passRes.2.filter (fun p => p.2 && p.1 != initedID)).map
    (fun p => FsOp.del p.1)
  passRes.1 ++ delOps ++ [FsOp.set initedID (initedData pfx)]

/-- Source: `Init`: the store state after all enqueued operations are
applied (on a reachable store the batch submission succeeds and the
returned error is nil). -/
def Init (pfx : String) (s : Store) (allData : List SerializedCollection) : Store :=
  applyOps s (initOps pfx s allData)

/-! ### Specification-side helpers for reasoning about `Init`
(not part of the source; used only to state and prove properties). -/

/-- Does an operation read or write this document ID? -/
def opTouches (op : FsOp) (id : String) : Bool :=
  match op with
  | FsOp.set i _ => i == id
  | FsOp.del i => i == id

/-- The effect of one operation on one document ID: `none` if
untouched, `some none` for a delete, `some (some d)` for a set. -/
def opEffect (op : FsOp) (id : String) : Option (Option Doc) :=
  match op with
  | FsOp.set i d => if i = id then some (some d) else none
  | FsOp.del i => if i = id then some none else none

/-- The net effect of an operation list on one document ID: the effect
of the last operation touching it, if any. -/
def opsGet : List FsOp → String → Option (Option Doc)
  | [], _ => none
  | op :: ops, id =>
    match opsGet ops id with
    | some r => some r
    | none => opEffect op id

/-- The documents written to an ID by the set operations of a list, in
order. -/
def setsFor (ops : List FsOp) (id : String) : List Doc :=
  ops.filterMap (fun op =>
    match op with
    | FsOp.set i d => if i == id then some d else none
    | FsOp.del _ => none)

/-- The items of a collection that pass the size guard. -/
def passingOf (pfx : String) (coll : SerializedCollection) : List KeyedItem :=
  coll.Items.filter (fun it => checkSizeLimit (encodeItem pfx coll.Kind it.Key it.Item))

/-- The set operations `Init`'s write pass enqueues. -/
def setsOf (pfx : String) (allData : List SerializedCollection) : List FsOp :=
  allData.flatMap (fun coll =>
    (passingOf pfx coll).map (fun it =>
      FsOp.set (makeDocID pfx coll.Kind it.Key)
        (encodeItem pfx coll.Kind it.Key it.Item)))

/-- The document IDs `Init`'s write pass writes. -/
def writtenIDs (pfx : String) (allData : List SerializedCollection) : List String :=
  allData.flatMap (fun coll =>
    (passingOf pfx coll).map (fun it => makeDocID pfx coll.Kind it.Key))

/-- The document IDs `readExistingDocIDs` collects. -/
def collectedIDs (pfx : String) (s : Store) (allData : List SerializedCollection) :
    List String :=
  allData.flatMap (fun coll =>
    (s.filter (fun p => nsFieldEq p.2 (namespaceForKind pfx coll.Kind))).map Prod.fst)

/-- The `unusedOldIDs` map as it stands after `Init`'s write pass:
every written ID marked `false` over the initially collected map. -/
def unusedFinal (pfx : String) (s : Store) (allData : List SerializedCollection) :
    List (String × Bool) :=
  (writtenIDs pfx allData).foldl (fun m i => mapSet m i false)
    (readExistingDocIDs pfx s allData)

/-- The delete operations `Init` enqueues. -/
def delOpsOf (pfx : String) (s : Store) (allData : List SerializedCollection) :
    List FsOp :=
  ((unusedFinal pfx s allData).filter
    (fun p => p.2 && p.1 != initedDocID pfx)).map (fun p => FsOp.del p.1)

/-- Well-formedness of an association list: unique keys.  Holds for any
reachable Firestore state (document IDs are unique in a collection). -/
abbrev keysNodup {α : Type} (m : List (String × α)) : Prop :=
  (m.map Prod.fst).Nodup

/-- The system-level assumptions on an `Init` dataset under which the
spec states its reconciliation properties: kind names are pairwise
distinct, contain no delimiter, differ from the reserved sentinel
namespace, and item keys are unique within each collection. -/
abbrev GoodData (allData : List SerializedCollection) : Prop :=
  (allData.map SerializedCollection.Kind).Nodup ∧
  (∀ c ∈ allData, ':' ∉ c.Kind.data) ∧
  (∀ c ∈ allData, c.Kind ≠ "$inited") ∧
  (∀ c ∈ allData, (c.Items.map KeyedItem.Key).Nodup)

/-! ## Big segment store (source: firestore_big_segments_impl.go) -/

def bigSegmentsMetadataKey : String := "big_segments_metadata"

def bigSegmentsUserDataKey : String := "big_segments_user"

def bigSegmentsSyncTimeAttr : String := "synchronizedOn"

def bigSegmentsIncludedAttr : String := "included"

def bigSegmentsExcludedAttr : String := "excluded"

/-- Source: big segment store `makeDocID`: prefix:namespace:key (the
same shape as `makeDocIDFromParts`). -/
def bigMakeDocID (pfx ns key : String) : String :=
  let fullNamespace := if pfx = "" then ns else pfx ++ ":" ++ ns
  fullNamespace ++ ":" ++ key

/-- `subsystems.BigSegmentStoreMetadata`: the last-synchronized marker
in epoch milliseconds (`uint64`). -/
structure BigSegmentStoreMetadata where
  LastUpToDate : Nat

/-- Source: `getStringSliceFromInterface`: an absent attribute is an
empty result; a non-array value or any non-string element is a hard
error. -/
def stringSliceElems : List FireValue → Except String (List String)
  | [] => Except.ok []
  | FireValue.str s :: rest =>
    match stringSliceElems rest with
    | Except.ok l => Except.ok (s :: l)
    | Except.error e => Except.error e
  | _ :: _ => Except.error "expected string array but found a non-string element"

def getStringSliceFromInterface (data : Doc) (key : String) :
    Except String (List String) :=
  match fieldOf data key with
  | none => Except.ok []
  | some (FireValue.arr xs) => stringSliceElems xs
  | some _ => Except.error "expected string array"

/-- Source: `GetMetadata`: an absent document, an absent or non-integer
`synchronizedOn`, or a zero marker all yield the empty metadata with a
nil error; a present nonzero marker is returned cast to `uint64`. -/
def GetMetadata (pfx : String) (s : Store) :
    Except String BigSegmentStoreMetadata :=
  match getDoc s (bigMakeDocID pfx bigSegmentsMetadataKey bigSegmentsMetadataKey) with
  | none => Except.ok ⟨0⟩
  | some d =>
    match fieldOf d bigSegmentsSyncTimeAttr with
    | some (FireValue.int v) =>
      if v = 0 then Except.ok ⟨0⟩
      else Except.ok ⟨(v % (2 : Int) ^ 64).toNat⟩
    | _ => Except.ok ⟨0⟩

/-- Source: `GetMembership`: an absent membership document yields the
empty membership (built from nil included/excluded refs) with a nil
error; decoding failures of either attribute propagate.  The
membership capability is represented by its included and excluded
reference lists. -/
def GetMembership (pfx : String) (s : Store) (contextHashKey : String) :
    Except String (List String × List String) :=
  match getDoc s (bigMakeDocID pfx bigSegmentsUserDataKey contextHashKey) with
  | none => Except.ok ([], [])
  | some d =>
    match getStringSliceFromInterface d bigSegmentsIncludedAttr with
    | Except.error e => Except.error e
    | Except.ok includedRefs =>
      match getStringSliceFromInterface d bigSegmentsExcludedAttr with
      | Except.error e => Except.error e
      | Except.ok excludedRefs => Except.ok (includedRefs, excludedRefs)

/-! ## Builder, construction and teardown (source: firestore_builder.go,
firestore_helpers.go, and the two Close methods).  A client connection
is identified by a number; `fresh` stands for the client
`makeClientAndContext` would create itself. -/

structure BuilderOptions where
  client : Option Nat
  projectID : String
  collection : String
  pfx : String

/-- Source: `makeClientAndContext`: use the externally supplied client
if present, otherwise create a new one (requiring a project ID). -/
def makeClientAndContext (b : BuilderOptions) (fresh : Nat) : Except String Nat :=
  match b.client with
  | some c => Except.ok c
  | none =>
    if b.projectID = "" then Except.error "project ID is required"
    else Except.ok fresh

/-- The state of a constructed primary data store that matters for
teardown: the client it holds.  (The source keeps no record of whether
the client was externally supplied.) -/
structure FirestoreDataStoreSt where
  client : Nat
  collection : String
  pfx : String

/-- Source: `newFirestoreDataStoreImpl`. -/
def newFirestoreDataStoreImpl (b : BuilderOptions) (fresh : Nat) :
    Except String FirestoreDataStoreSt :=
  if b.collection = "" then Except.error "collection name is required"
  else
    match makeClientAndContext b fresh with
    | Except.error e => Except.error e
    | Except.ok c => Except.ok ⟨c, b.collection, b.pfx⟩

/-- Observable teardown effects. -/
inductive CloseEffect where
  | cancelContext
  | closeClient : Nat → CloseEffect

/-- Source: primary store `Close` (part_000 lines 281-284): cancel the
context, then unconditionally `client.Close()`. -/
def FirestoreDataStoreSt.Close (st : FirestoreDataStoreSt) : List CloseEffect :=
  [CloseEffect.cancelContext, CloseEffect.closeClient st.client]

/-- The state of a constructed big segment store that matters for
teardown. -/
structure BigSegmentStoreSt where
  client : Nat
  ownsClient : Bool
  collection : String
  pfx : String

/-- Source: `newFirestoreBigSegmentStoreImpl`: records whether it
created the client itself (`ownsClient`). -/
def newFirestoreBigSegmentStoreImpl (b : BuilderOptions) (fresh : Nat) :
    Except String BigSegmentStoreSt :=
  if b.collection = "" then Except.error "collection name is required"
  else
    match b.client with
    | some c => Except.ok ⟨c, false, b.collection, b.pfx⟩
    | none =>
      match makeClientAndContext b fresh with
      | Except.error e => Except.error e
      | Except.ok c => Except.ok ⟨c, true, b.collection, b.pfx⟩

/-- Source: big segment store `Close`: cancel the context; close the
client only if this store created it. -/
def BigSegmentStoreSt.Close (st : BigSegmentStoreSt) : List CloseEffect :=
  CloseEffect.cancelContext ::
    (if st.ownsClient then [CloseEffect.closeClient st.client] else [])

/-! ### Concrete fixtures used by witnesses -/

def demoItemA : KeyedItem := ⟨"A", ⟨2, "a2"⟩⟩

def demoItemD : KeyedItem := ⟨"D", ⟨1, "d"⟩⟩

def demoColl : SerializedCollection := ⟨"features", [demoItemA, demoItemD]⟩

def demoData : List SerializedCollection := [demoColl]

def demoStore : Store :=
  [(makeDocID "" "features" "A", encodeItem "" "features" "A" ⟨1, "a"⟩),
   (makeDocID "" "features" "B", encodeItem "" "features" "B" ⟨1, "b"⟩),
   (makeDocID "" "features" "C", encodeItem "" "features" "C" ⟨1, "c"⟩)]

/-! # Theorems -/

/-! ## Association-list basics -/

theorem find?_filter_ne {α : Type} (l : List (String × α)) (id j : String) :
    (l.filter (fun p => p.1 != id)).find? (fun p => p.1 == j) =
      if j = id then none else l.find? (fun p => p.1 == j) := by
  induction l with
  | nil => simp
  | cons a l ih =>
    by_cases h1 : a.1 = id <;> by_cases h2 : j = id <;>
      simp_all [List.filter_cons, List.find?_cons, bne] <;>
      split <;> simp_all

theorem getDoc_cons (k : String) (v : Doc) (m : Store) (j : String) :
    getDoc ((k, v) :: m) j = if k = j then some v else getDoc m j := by
  by_cases h : k = j <;> simp [getDoc, List.find?_cons, h]

theorem getDoc_deleteDoc (s : Store) (id j : String) :
    getDoc (deleteDoc s id) j = if j = id then none else getDoc s j := by
  unfold getDoc deleteDoc
  rw [find?_filter_ne]
  by_cases h : j = id <;> simp [h]

theorem getDoc_setDoc (s : Store) (id : String) (d : Doc) (j : String) :
    getDoc (setDoc s id d) j = if j = id then some d else getDoc s j := by
  unfold setDoc
  rw [getDoc_cons, getDoc_deleteDoc]
  by_cases h : j = id <;> simp [h]
  exact fun h2 => absurd h2.symm h

theorem mapGet_cons (k : String) (v : Bool) (m : List (String × Bool)) (j : String) :
    mapGet ((k, v) :: m) j = if k = j then some v else mapGet m j := by
  by_cases h : k = j <;> simp [mapGet, List.find?_cons, h]

theorem mapGet_mapSet (m : List (String × Bool)) (k : String) (b : Bool) (j : String) :
    mapGet (mapSet m k b) j = if j = k then some b else mapGet m j := by
  unfold mapSet
  rw [mapGet_cons]
  unfold mapGet
  rw [find?_filter_ne]
  by_cases h : j = k <;> simp [h]
  exact fun h2 => absurd h2.symm h

theorem mapGet_mem {m : List (String × Bool)} {k : String} {v : Bool}
    (h : mapGet m k = some v) : (k, v) ∈ m := by
  unfold mapGet at h
  cases hf : m.find? (fun p => p.1 == k) with
  | none => rw [hf] at h; simp at h
  | some p =>
    rw [hf] at h
    have hp := List.find?_some hf
    have hmem := List.mem_of_find?_eq_some hf
    simp at h hp
    have : p = (k, v) := by
      cases p
      simp_all
    exact this ▸ hmem

theorem mem_mapGet {m : List (String × Bool)} {k : String} {v : Bool}
    (hn : keysNodup m) (h : (k, v) ∈ m) : mapGet m k = some v := by
  induction m with
  | nil => simp at h
  | cons a m ih =>
    have hn' : keysNodup m := (List.nodup_cons.mp hn).2
    rcases List.mem_cons.mp h with h1 | h1
    · cases a
      cases h1
      simp [mapGet, List.find?_cons]
    · have hk : a.1 ≠ k := by
        intro hk
        exact (List.nodup_cons.mp hn).1
          (hk ▸ (List.mem_map.mpr ⟨(k, v), h1, rfl⟩))
      cases a
      rw [mapGet_cons, if_neg hk]
      exact ih hn' h1

/-! ## The document identity scheme -/

theorem colon_split : ∀ (l1 l2 l3 l4 : List Char), ':' ∉ l1 → ':' ∉ l3 →
    l1 ++ ':' :: l2 = l3 ++ ':' :: l4 → l1 = l3 ∧ l2 = l4 := by
  intro l1
  induction l1 with
  | nil =>
    intro l2 l3 l4 _ h3 h
    cases l3 with
    | nil =>
      simp only [List.nil_append, List.cons.injEq] at h
      exact ⟨rfl, h.2⟩
    | cons c l3 =>
      simp only [List.nil_append, List.cons_append, List.cons.injEq] at h
      exact absurd (List.mem_cons.mpr (Or.inl h.1)) h3
  | cons c l1 ih =>
    intro l2 l3 l4 h1 h3 h
    cases l3 with
    | nil =>
      simp only [List.cons_append, List.nil_append, List.cons.injEq] at h
      exact absurd (List.mem_cons.mpr (Or.inl h.1.symm)) h1
    | cons c2 l3 =>
      simp only [List.cons_append, List.cons.injEq] at h
      have h' := ih l2 l3 l4 (fun hm => h1 (List.mem_cons.mpr (Or.inr hm)))
        (fun hm => h3 (List.mem_cons.mpr (Or.inr hm))) h.2
      exact ⟨by rw [h.1, h'.1], h'.2⟩

theorem colon_data : (":" : String).data = [':'] := rfl

theorem makeDocIDFromParts_data (pfx ns key : String) :
    (makeDocIDFromParts pfx ns key).data =
      if pfx = "" then ns.data ++ ':' :: key.data
      else pfx.data ++ ':' :: (ns.data ++ ':' :: key.data) := by
  unfold makeDocIDFromParts
  by_cases h : pfx = "" <;> simp [h, String.data_append, colon_data]

theorem prefixedNamespace_inj (pfx a a2 : String)
    (h : prefixedNamespace pfx a = prefixedNamespace pfx a2) : a = a2 := by
  unfold prefixedNamespace at h
  by_cases hp : pfx = ""
  · simpa [hp] using h
  · rw [if_neg hp, if_neg hp] at h
    have hd := congrArg String.data h
    simp only [String.data_append, colon_data, List.append_assoc,
      List.singleton_append] at hd
    exact String.ext (List.cons.injEq .. |>.mp (List.append_cancel_left hd)).2

theorem makeDocIDFromParts_inj (pfx ns key ns2 key2 : String)
    (hns : ':' ∉ ns.data) (hns2 : ':' ∉ ns2.data)
    (h : makeDocIDFromParts pfx ns key = makeDocIDFromParts pfx ns2 key2) :
    ns = ns2 ∧ key = key2 := by
  have hd := congrArg String.data h
  rw [makeDocIDFromParts_data, makeDocIDFromParts_data] at hd
  by_cases hp : pfx = ""
  · rw [if_pos hp, if_pos hp] at hd
    have := colon_split _ _ _ _ hns hns2 hd
    exact ⟨String.ext this.1, String.ext this.2⟩
  · rw [if_neg hp, if_neg hp] at hd
    have hd2 := (List.cons.injEq .. |>.mp (List.append_cancel_left hd)).2
    have := colon_split _ _ _ _ hns hns2 hd2
    exact ⟨String.ext this.1, String.ext this.2⟩

theorem prefixedNamespace_data (pfx a : String) :
    (prefixedNamespace pfx a).data =
      if pfx = "" then a.data else pfx.data ++ ':' :: a.data := by
  unfold prefixedNamespace
  by_cases h : pfx = "" <;> simp [h, String.data_append, colon_data]

/-- Injectivity of the whole primary-store path from a (kind, key) pair
to a document ID, with the store prefix fixed: only the base namespace
needs to be delimiter-free. -/
theorem docKindKey_inj (pfx a b a2 b2 : String)
    (ha : ':' ∉ a.data) (ha2 : ':' ∉ a2.data)
    (h : makeDocIDFromParts pfx (prefixedNamespace pfx a) b =
         makeDocIDFromParts pfx (prefixedNamespace pfx a2) b2) :
    a = a2 ∧ b = b2 := by
  have hd := congrArg String.data h
  rw [makeDocIDFromParts_data, makeDocIDFromParts_data,
    prefixedNamespace_data, prefixedNamespace_data] at hd
  by_cases hp : pfx = ""
  · rw [if_pos hp, if_pos hp, if_pos hp, if_pos hp] at hd
    have := colon_split _ _ _ _ ha ha2 hd
    exact ⟨String.ext this.1, String.ext this.2⟩
  · rw [if_neg hp, if_neg hp, if_neg hp, if_neg hp] at hd
    simp only [List.cons_append, List.append_assoc] at hd
    have hd2 := (List.cons.injEq .. |>.mp (List.append_cancel_left hd)).2
    have hd3 := (List.cons.injEq .. |>.mp (List.append_cancel_left hd2)).2
    have := colon_split _ _ _ _ ha ha2 hd3
    exact ⟨String.ext this.1, String.ext this.2⟩

theorem makeDocID_inj (pfx kind key kind2 key2 : String)
    (hk : ':' ∉ kind.data) (hk2 : ':' ∉ kind2.data)
    (h : makeDocID pfx kind key = makeDocID pfx kind2 key2) :
    kind = kind2 ∧ key = key2 :=
  docKindKey_inj pfx kind key kind2 key2 hk hk2 h

theorem makeDocID_ne_initedDocID (pfx kind key : String)
    (hk : ':' ∉ kind.data) (hne : kind ≠ "$inited") :
    makeDocID pfx kind key ≠ initedDocID pfx := by
  intro h
  have := docKindKey_inj pfx kind key "$inited" (initedKey pfx) hk (by decide) h
  exact hne this.1

/-- C10: The document-identity encoding is a total deterministic
function of (prefix, namespace, key) — it is a pure Lean function of
exactly those arguments — and for delimiter-free inputs it is
injective: under the same prefix, distinct (namespace, key) pairs get
distinct identifiers; moreover the big segment store's encoder computes
the same identifier as the primary store's `makeDocIDFromParts`. -/
theorem docID_encoding_injective (pfx ns key ns2 key2 : String)
    (hns : ':' ∉ ns.data) (hns2 : ':' ∉ ns2.data)
    (hkey : ':' ∉ key.data) (hkey2 : ':' ∉ key2.data) :
    (makeDocIDFromParts pfx ns key = makeDocIDFromParts pfx ns2 key2 →
      ns = ns2 ∧ key = key2) ∧
    bigMakeDocID pfx ns key = makeDocIDFromParts pfx ns key := by
  refine ⟨fun h => makeDocIDFromParts_inj pfx ns key ns2 key2 hns hns2 h, ?_⟩
  unfold bigMakeDocID makeDocIDFromParts
  by_cases hp : pfx = "" <;> simp [hp, String.append_assoc]

/-- Witness for C10 at concrete delimiter-free inputs. -/
theorem docID_encoding_injective_witness :
    ((':' ∉ ("features" : String).data) ∧ (':' ∉ ("segments" : String).data) ∧
      (':' ∉ ("k1" : String).data) ∧ (':' ∉ ("k2" : String).data)) ∧
    ((makeDocIDFromParts "p" "features" "k1" = makeDocIDFromParts "p" "segments" "k2" →
        ("features" : String) = "segments" ∧ ("k1" : String) = "k2") ∧
      bigMakeDocID "p" "features" "k1" = makeDocIDFromParts "p" "features" "k1") :=
  ⟨⟨by decide, by decide, by decide, by decide⟩,
    docID_encoding_injective "p" "features" "k1" "segments" "k2"
      (by decide) (by decide) (by decide) (by decide)⟩

/-! ## Optimistic upsert -/

/-- C1: For an Upsert that passes the size guard: an absent document is
treated as stored version -1 (so a new item with version 0 wins); if
the stored version is at least the new version, nothing is written and
the result is applied=false with a nil error; otherwise the encoded
document is written and the result is applied=true with a nil error.
Hence a stored version never decreases under Upsert. -/
theorem upsert_version_protocol (pfx : String) (s : Store) (kind key : String)
    (newItem : SerializedItemDescriptor)
    (hsize : checkSizeLimit (encodeItem pfx kind key newItem) = true) :
    (getDoc s (makeDocID pfx kind key) = none →
      oldVersionIn s (makeDocID pfx kind key) = -1) ∧
    (oldVersionIn s (makeDocID pfx kind key) ≥ newItem.Version →
      Upsert pfx s kind key newItem = (s, false, none)) ∧
    (oldVersionIn s (makeDocID pfx kind key) < newItem.Version →
      Upsert pfx s kind key newItem =
        (setDoc s (makeDocID pfx kind key) (encodeItem pfx kind key newItem),
          true, none)) := by
  refine ⟨fun h => by simp [oldVersionIn, h], fun h => ?_, fun h => ?_⟩
  · unfold Upsert
    simp [hsize, h]
  · unfold Upsert
    simp [hsize, not_le.mpr h]

/-- Witness for C1: with stored version 5, an upsert at version 5 is
rejected without effect and one at version 6 is applied. -/
theorem upsert_version_protocol_witness :
    (checkSizeLimit (encodeItem "" "features" "f1" ⟨5, "q"⟩) = true ∧
      oldVersionIn [(makeDocID "" "features" "f1",
          encodeItem "" "features" "f1" ⟨5, "p"⟩)] (makeDocID "" "features" "f1") ≥
        (5 : Int)) ∧
    Upsert "" [(makeDocID "" "features" "f1", encodeItem "" "features" "f1" ⟨5, "p"⟩)]
        "features" "f1" ⟨5, "q"⟩ =
      ([(makeDocID "" "features" "f1", encodeItem "" "features" "f1" ⟨5, "p"⟩)],
        false, none) ∧
    Upsert "" [(makeDocID "" "features" "f1", encodeItem "" "features" "f1" ⟨5, "p"⟩)]
        "features" "f1" ⟨6, "q"⟩ =
      (setDoc [(makeDocID "" "features" "f1", encodeItem "" "features" "f1" ⟨5, "p"⟩)]
          (makeDocID "" "features" "f1") (encodeItem "" "features" "f1" ⟨6, "q"⟩),
        true, none) :=
  ⟨⟨by decide, by decide⟩,
    (upsert_version_protocol "" _ "features" "f1" ⟨5, "q"⟩ (by decide)).2.1 (by decide),
    (upsert_version_protocol "" _ "features" "f1" ⟨6, "q"⟩ (by decide)).2.2 (by decide)⟩

/-! ## Size guard on the Upsert path -/

theorem utf8_replicate (n : Nat) :
    (String.mk (List.replicate n 'a')).utf8ByteSize = n := by
  induction n with
  | zero => rfl
  | succ k ih =>
    have h1 : 'a'.utf8Size = 1 := by decide
    simp only [List.replicate, String.utf8ByteSize_mk, String.utf8Len_cons] at ih ⊢
    rw [ih, h1]

/-- C7: an item whose estimated encoded size (field-name lengths, plus
string field byte lengths, plus 8 bytes per non-string field) exceeds
the 900000-byte threshold is rejected by Upsert up front: the store is
untouched and the result is applied=false with a nil error. -/
theorem upsert_oversized_rejected (pfx : String) (s : Store) (kind key : String)
    (newItem : SerializedItemDescriptor)
    (h : firestoreMaxDocSize < estimatedDocSize (encodeItem pfx kind key newItem)) :
    Upsert pfx s kind key newItem = (s, false, none) := by
  have hc : checkSizeLimit (encodeItem pfx kind key newItem) = false := by
    unfold checkSizeLimit
    simp [not_le.mpr h]
  unfold Upsert
  simp [hc]

/-- The estimated size of the encoded test item with an `n`-byte
payload: 31 bytes of field names and fixed overhead plus the
namespace, key and payload lengths. -/
theorem estimated_encode_big (v : Int) (n : Nat) :
    estimatedDocSize (encodeItem "" "features" "big"
      ⟨v, String.mk (List.replicate n 'a')⟩) = 42 + n := by
  have e1 : ("namespace" : String).utf8ByteSize = 9 := rfl
  have e2 : ("features" : String).utf8ByteSize = 8 := rfl
  have e3 : ("key" : String).utf8ByteSize = 3 := rfl
  have e4 : ("big" : String).utf8ByteSize = 3 := rfl
  have e5 : ("version" : String).utf8ByteSize = 7 := rfl
  have e6 : ("item" : String).utf8ByteSize = 4 := rfl
  simp only [estimatedDocSize, encodeItem, fieldNamespace, fieldKey, fieldVersion,
    fieldItem, namespaceForKind, prefixedNamespace, List.foldl, if_pos,
    e1, e2, e3, e4, e5, e6, utf8_replicate]

/-- Witness for C7 at a payload of 900001 bytes. -/
theorem upsert_oversized_rejected_witness :
    firestoreMaxDocSize <
      estimatedDocSize (encodeItem "" "features" "big"
        ⟨1, String.mk (List.replicate 900001 'a')⟩) ∧
    Upsert "" [] "features" "big" ⟨1, String.mk (List.replicate 900001 'a')⟩ =
      ([], false, none) := by
  have hbig : firestoreMaxDocSize <
      estimatedDocSize (encodeItem "" "features" "big"
        ⟨1, String.mk (List.replicate 900001 'a')⟩) := by
    rw [estimated_encode_big 1 900001]
    norm_num [firestoreMaxDocSize]
  exact ⟨hbig, upsert_oversized_rejected "" [] "features" "big" _ hbig⟩

/-! ## Availability probe -/

/-- C3 (code bug evidence): on a reachable store whose readiness
sentinel document is absent, `IsStoreAvailable` returns false, because
`DocumentRef.Get` reports an absent document as a NotFound error and
the source tests `err == nil` — contradicting the source's own comment
that both found and not found count as available. -/
theorem isStoreAvailable_false_on_missing_sentinel :
    IsStoreAvailable true "" [] = false ∧ IsInitialized true "" [] = false :=
  ⟨rfl, rfl⟩

/-! ## Teardown ownership -/

/-- C4 (code bug evidence): constructed with an externally supplied
client (id 7), the primary data store's `Close` still closes that
client, while the big segment store's `Close` does not. -/
theorem dataStore_close_closes_external_client :
    (newFirestoreDataStoreImpl ⟨some 7, "proj", "coll", ""⟩ 99).map
        FirestoreDataStoreSt.Close =
      Except.ok [CloseEffect.cancelContext, CloseEffect.closeClient 7] ∧
    (newFirestoreBigSegmentStoreImpl ⟨some 7, "proj", "coll", ""⟩ 99).map
        BigSegmentStoreSt.Close =
      Except.ok [CloseEffect.cancelContext] :=
  ⟨rfl, rfl⟩

/-! ## Big segment store: absence semantics and malformed data -/

/-- C9: an absent membership record yields the empty membership with a
nil error; an absent metadata document, or one whose synchronizedOn
marker is unset or zero, yields the empty metadata with a nil error. -/
theorem big_segment_absence_semantics (pfx hashKey : String) (s : Store) :
    (getDoc s (bigMakeDocID pfx bigSegmentsUserDataKey hashKey) = none →
      GetMembership pfx s hashKey = Except.ok ([], [])) ∧
    (getDoc s (bigMakeDocID pfx bigSegmentsMetadataKey bigSegmentsMetadataKey) = none →
      GetMetadata pfx s = Except.ok ⟨0⟩) ∧
    (∀ d, getDoc s (bigMakeDocID pfx bigSegmentsMetadataKey bigSegmentsMetadataKey) =
        some d →
      (fieldOf d bigSegmentsSyncTimeAttr = none ∨
        fieldOf d bigSegmentsSyncTimeAttr = some (FireValue.int 0)) →
      GetMetadata pfx s = Except.ok ⟨0⟩) := by
  refine ⟨fun h => ?_, fun h => ?_, fun d hd hf => ?_⟩
  · unfold GetMembership
    rw [h]
  · unfold GetMetadata
    rw [h]
  · unfold GetMetadata
    rw [hd]
    rcases hf with hf | hf <;> simp [hf]

/-- Witness for C9 on an empty store. -/
theorem big_segment_absence_semantics_witness :
    getDoc [] (bigMakeDocID "" bigSegmentsUserDataKey "unknown-hash") = none ∧
    GetMembership "" [] "unknown-hash" = Except.ok ([], []) ∧
    GetMetadata "" [] = Except.ok ⟨0⟩ :=
  ⟨rfl, (big_segment_absence_semantics "" "unknown-hash" []).1 rfl,
    (big_segment_absence_semantics "" "unknown-hash" []).2.1 rfl⟩

/-- C5 counterexample: a stored primary document in namespace
"features" with no key field fails to decode, yet `GetAll` returns a
nil error and simply omits it, contrary to the claim that a document
failing to decode causes the read to return an error. -/
theorem getAll_swallows_undecodable_doc :
    decodeDocument [(fieldNamespace, FireValue.str "features"),
        (fieldVersion, FireValue.int 5)] = none ∧
    GetAll "" [("features:x", [(fieldNamespace, FireValue.str "features"),
        (fieldVersion, FireValue.int 5)])] "features" = Except.ok [] :=
  ⟨rfl, rfl⟩

theorem stringSliceElems_error (xs : List FireValue)
    (h : ∃ x ∈ xs, ∀ str, x ≠ FireValue.str str) :
    ∃ e, stringSliceElems xs = Except.error e := by
  induction xs with
  | nil => simp at h
  | cons x rest ih =>
    obtain ⟨x0, hx0, hns⟩ := h
    cases x with
    | str s =>
      have hx0rest : x0 ∈ rest := by
        rcases List.mem_cons.mp hx0 with h1 | h1
        · exact absurd h1 (hns s)
        · exact h1
      obtain ⟨e, he⟩ := ih ⟨x0, hx0rest, hns⟩
      exact ⟨e, by simp [stringSliceElems, he]⟩
    | int v => exact ⟨_, rfl⟩
    | arr l => exact ⟨_, rfl⟩

/-- C5 amended: malformed stored data is a hard error for
`GetMembership` (either membership attribute — included or excluded —
containing a non-string element) and for `Get` (a found document that
fails to decode), but `GetAll` does not error on undecodable
documents: it silently omits them and returns a nil error. -/
theorem malformed_data_handling (pfx : String) (s : Store) :
    (∀ hashKey d xs,
      getDoc s (bigMakeDocID pfx bigSegmentsUserDataKey hashKey) = some d →
      (fieldOf d bigSegmentsIncludedAttr = some (FireValue.arr xs) ∨
        fieldOf d bigSegmentsExcludedAttr = some (FireValue.arr xs)) →
      (∃ x ∈ xs, ∀ str, x ≠ FireValue.str str) →
      ∃ e, GetMembership pfx s hashKey = Except.error e) ∧
    (∀ kind key d, getDoc s (makeDocID pfx kind key) = some d →
      decodeDocument d = none →
      ∃ e, Get pfx s kind key = Except.error e) ∧
    (∀ kind, ∃ l, GetAll pfx s kind = Except.ok l) := by
  refine ⟨fun hashKey d xs hd hfield hbad => ?_, fun kind key d hd hdec => ?_,
    fun kind => ⟨_, rfl⟩⟩
  · obtain ⟨e, he⟩ := stringSliceElems_error xs hbad
    rcases hfield with hf | hf
    · have hginc : getStringSliceFromInterface d bigSegmentsIncludedAttr =
          Except.error e := by
        unfold getStringSliceFromInterface
        simp [hf, he]
      refine ⟨e, ?_⟩
      unfold GetMembership
      rw [hd]
      simp [hginc]
    · cases hinc : getStringSliceFromInterface d bigSegmentsIncludedAttr with
      | error e2 =>
        refine ⟨e2, ?_⟩
        unfold GetMembership
        rw [hd]
        simp [hinc]
      | ok inc =>
        have hgexc : getStringSliceFromInterface d bigSegmentsExcludedAttr =
            Except.error e := by
          unfold getStringSliceFromInterface
          simp [hf, he]
        refine ⟨e, ?_⟩
        unfold GetMembership
        rw [hd]
        simp [hinc, hgexc]
  · refine ⟨"invalid data for " ++ kind ++ " key " ++ key, ?_⟩
    unfold Get
    rw [hd]
    simp [hdec]

/-- Witness for C5's amended claim at concrete malformed documents: a
non-string element in the included attribute, a non-string element in
the excluded attribute (with a well-formed included attribute), and a
primary document that fails to decode. -/
theorem malformed_data_handling_witness :
    GetMembership "" [(bigMakeDocID "" bigSegmentsUserDataKey "h",
        [(bigSegmentsIncludedAttr, FireValue.arr [FireValue.int 3])])] "h" =
      Except.error "expected string array but found a non-string element" ∧
    GetMembership "" [(bigMakeDocID "" bigSegmentsUserDataKey "h",
        [(bigSegmentsIncludedAttr, FireValue.arr [FireValue.str "s1"]),
         (bigSegmentsExcludedAttr, FireValue.arr [FireValue.int 7])])] "h" =
      Except.error "expected string array but found a non-string element" ∧
    Get "" [(makeDocID "" "features" "k",
        [(fieldNamespace, FireValue.str "features")])] "features" "k" =
      Except.error ("invalid data for " ++ "features" ++ " key " ++ "k") := by
  have h1 := (malformed_data_handling ""
      [(bigMakeDocID "" bigSegmentsUserDataKey "h",
        [(bigSegmentsIncludedAttr, FireValue.arr [FireValue.int 3])])]).1 "h"
    [(bigSegmentsIncludedAttr, FireValue.arr [FireValue.int 3])] [FireValue.int 3]
    rfl (Or.inl rfl)
    ⟨FireValue.int 3, List.mem_singleton.mpr rfl, fun str h => FireValue.noConfusion h⟩
  have h2 := (malformed_data_handling ""
      [(bigMakeDocID "" bigSegmentsUserDataKey "h",
        [(bigSegmentsIncludedAttr, FireValue.arr [FireValue.str "s1"]),
         (bigSegmentsExcludedAttr, FireValue.arr [FireValue.int 7])])]).1 "h"
    [(bigSegmentsIncludedAttr, FireValue.arr [FireValue.str "s1"]),
     (bigSegmentsExcludedAttr, FireValue.arr [FireValue.int 7])] [FireValue.int 7]
    rfl (Or.inr rfl)
    ⟨FireValue.int 7, List.mem_singleton.mpr rfl, fun str h => FireValue.noConfusion h⟩
  have h3 := (malformed_data_handling ""
      [(makeDocID "" "features" "k",
        [(fieldNamespace, FireValue.str "features")])]).2.1 "features" "k"
    [(fieldNamespace, FireValue.str "features")] rfl rfl
  exact ⟨rfl, rfl, rfl⟩

/-! ## The effect of an operation list on a single document -/

theorem applyOps_cons (s : Store) (op : FsOp) (ops : List FsOp) :
    applyOps s (op :: ops) = applyOps (applyOp s op) ops := rfl

theorem getDoc_applyOp_set (s : Store) (i : String) (d : Doc) (j : String) :
    getDoc (applyOp s (FsOp.set i d)) j = if j = i then some d else getDoc s j :=
  getDoc_setDoc s i d j

theorem getDoc_applyOp_del (s : Store) (i j : String) :
    getDoc (applyOp s (FsOp.del i)) j = if j = i then none else getDoc s j :=
  getDoc_deleteDoc s i j

theorem opsGet_nil (id : String) : opsGet [] id = none := rfl

theorem opsGet_cons (op : FsOp) (ops : List FsOp) (id : String) :
    opsGet (op :: ops) id =
      match opsGet ops id with
      | some r => some r
      | none => opEffect op id := rfl

theorem getDoc_applyOps (s : Store) (ops : List FsOp) (j : String) :
    getDoc (applyOps s ops) j = (opsGet ops j).getD (getDoc s j) := by
  induction ops generalizing s with
  | nil => rfl
  | cons op ops ih =>
    rw [applyOps_cons, ih, opsGet_cons]
    cases h : opsGet ops j with
    | some r => simp
    | none =>
      cases op with
      | set i d =>
        rw [getDoc_applyOp_set]
        by_cases hij : i = j
        · subst hij
          simp [opEffect]
        · rw [if_neg (fun hh => hij hh.symm)]
          simp [opEffect, hij]
      | del i =>
        rw [getDoc_applyOp_del]
        by_cases hij : i = j
        · subst hij
          simp [opEffect]
        · rw [if_neg (fun hh => hij hh.symm)]
          simp [opEffect, hij]

theorem opsGet_append (l1 l2 : List FsOp) (id : String) :
    opsGet (l1 ++ l2) id =
      match opsGet l2 id with
      | some r => some r
      | none => opsGet l1 id := by
  induction l1 with
  | nil =>
    cases h : opsGet l2 id <;> simp [opsGet_nil, h]
  | cons op l1 ih =>
    show opsGet (op :: (l1 ++ l2)) id = _
    rw [opsGet_cons, ih, opsGet_cons]
    cases h2 : opsGet l2 id <;> cases h1 : opsGet l1 id <;> simp

theorem opsGet_none_iff (ops : List FsOp) (id : String) :
    opsGet ops id = none ↔ ∀ op ∈ ops, opEffect op id = none := by
  induction ops with
  | nil => simp [opsGet_nil]
  | cons op ops ih =>
    rw [opsGet_cons]
    cases hr : opsGet ops id with
    | some r =>
      simp only [hr]
      constructor
      · intro h
        simp at h
      · intro h
        rw [← hr, ih]
        exact fun o ho => h o (List.mem_cons.mpr (Or.inr ho))
    | none =>
      simp only [hr]
      constructor
      · intro h o ho
        rcases List.mem_cons.mp ho with h1 | h1
        · exact h1 ▸ h
        · exact (ih.mp hr) o h1
      · intro h
        exact h op (List.mem_cons_self op ops)

theorem opsGet_map_del (ids : List String) (id : String) :
    opsGet (ids.map FsOp.del) id = if id ∈ ids then some none else none := by
  induction ids with
  | nil => simp [opsGet_nil]
  | cons i ids ih =>
    show opsGet (FsOp.del i :: ids.map FsOp.del) id = _
    rw [opsGet_cons, ih]
    by_cases h : id ∈ ids
    · simp [h, List.mem_cons]
    · by_cases h2 : id = i
      · subst h2
        simp [h, opEffect, List.mem_cons]
      · have h3 : ¬ i = id := fun hh => h2 hh.symm
        simp [h, h2, h3, opEffect, List.mem_cons]

theorem setsFor_cons_set_eq (i id : String) (d : Doc) (ops : List FsOp) :
    setsFor (FsOp.set i d :: ops) id = (if i = id then [d] else []) ++ setsFor ops id := by
  by_cases h : i = id <;> simp [setsFor, List.filterMap_cons, h]

theorem opsGet_allSets (ops : List FsOp) (id : String)
    (h : ∀ op ∈ ops, ∃ i d, op = FsOp.set i d) :
    opsGet ops id = (setsFor ops id).getLast?.map some := by
  induction ops with
  | nil => rfl
  | cons op ops ih =>
    obtain ⟨i, d, rfl⟩ := h op (List.mem_cons_self op ops)
    have ih' := ih (fun o ho => h o (List.mem_cons.mpr (Or.inr ho)))
    rw [opsGet_cons, ih', setsFor_cons_set_eq]
    by_cases hio : i = id
    · rw [if_pos hio]
      cases hlast : (setsFor ops id).getLast? with
      | some r =>
        have hne : setsFor ops id ≠ [] := by
          intro he
          rw [he] at hlast
          simp at hlast
        obtain ⟨x, l2, hx⟩ := List.exists_cons_of_ne_nil hne
        rw [hx, List.singleton_append, List.getLast?_cons_cons, ← hx, hlast]
        rfl
      | none =>
        have he : setsFor ops id = [] := List.getLast?_eq_none_iff.mp hlast
        rw [he]
        simp [opEffect, hio]
    · rw [if_neg hio, List.nil_append]
      cases hlast : (setsFor ops id).getLast? <;> simp [opEffect, hio]

theorem setsFor_eq_nil_iff (ops : List FsOp) (id : String) :
    setsFor ops id = [] ↔ ∀ op ∈ ops, ∀ d, op ≠ FsOp.set id d := by
  unfold setsFor
  rw [List.filterMap_eq_nil_iff]
  constructor
  · intro h op hop d he
    subst he
    have := h _ hop
    simp at this
  · intro h op hop
    cases op with
    | set i d =>
      have hne : ¬ i = id := fun he => h _ hop d (by rw [he])
      simp [hne]
    | del i => rfl

/-! ## Characterizing the unused-IDs map built by Init -/

theorem getDoc_mem {s : Store} {k : String} {v : Doc}
    (h : getDoc s k = some v) : (k, v) ∈ s := by
  unfold getDoc at h
  cases hf : s.find? (fun p => p.1 == k) with
  | none => rw [hf] at h; simp at h
  | some p =>
    rw [hf] at h
    have hp := List.find?_some hf
    have hmem := List.mem_of_find?_eq_some hf
    simp at h hp
    have : p = (k, v) := by
      cases p
      simp_all
    exact this ▸ hmem

theorem mem_getDoc {s : Store} {k : String} {v : Doc}
    (hn : keysNodup s) (h : (k, v) ∈ s) : getDoc s k = some v := by
  induction s with
  | nil => simp at h
  | cons a s ih =>
    have hn2 : keysNodup s := (List.nodup_cons.mp hn).2
    rcases List.mem_cons.mp h with h1 | h1
    · cases a
      cases h1
      simp [getDoc, List.find?_cons]
    · have hk : a.1 ≠ k := by
        intro hk
        exact (List.nodup_cons.mp hn).1
          (hk ▸ (List.mem_map.mpr ⟨(k, v), h1, rfl⟩))
      cases a
      rw [getDoc_cons, if_neg hk]
      exact ih hn2 h1

theorem mapGet_foldl_mapSet (ids : List String) (b : Bool)
    (m : List (String × Bool)) (j : String) :
    mapGet (ids.foldl (fun m i => mapSet m i b) m) j =
      if j ∈ ids then some b else mapGet m j := by
  induction ids generalizing m with
  | nil => simp
  | cons i ids ih =>
    rw [List.foldl_cons, ih]
    by_cases h : j ∈ ids
    · simp [h, List.mem_cons]
    · by_cases h2 : j = i
      · subst h2
        simp [h, mapGet_mapSet, List.mem_cons]
      · simp [h, h2, mapGet_mapSet, List.mem_cons]

theorem readExisting_go (pfx : String) (s : Store)
    (ds : List SerializedCollection) (m : List (String × Bool)) :
    ds.foldl
        (fun m coll =>
          (s.filter (fun p => nsFieldEq p.2 (namespaceForKind pfx coll.Kind))).foldl
            (fun m p => mapSet m p.1 true) m)
        m =
      (collectedIDs pfx s ds).foldl (fun m i => mapSet m i true) m := by
  induction ds generalizing m with
  | nil => rfl
  | cons coll ds ih =>
    rw [List.foldl_cons, ih]
    show _ = (collectedIDs pfx s (coll :: ds)).foldl _ m
    unfold collectedIDs
    rw [List.flatMap_cons, List.foldl_append, List.foldl_map]

theorem readExistingDocIDs_eq (pfx : String) (s : Store)
    (ds : List SerializedCollection) :
    readExistingDocIDs pfx s ds =
      (collectedIDs pfx s ds).foldl (fun m i => mapSet m i true) [] :=
  readExisting_go pfx s ds []

theorem mapGet_readExisting (pfx : String) (s : Store)
    (ds : List SerializedCollection) (j : String) :
    mapGet (readExistingDocIDs pfx s ds) j =
      if j ∈ collectedIDs pfx s ds then some true else none := by
  rw [readExistingDocIDs_eq, mapGet_foldl_mapSet]
  by_cases h : j ∈ collectedIDs pfx s ds <;> simp [h, mapGet]

theorem initItems_go (pfx kind : String) (items : List KeyedItem)
    (ops : List FsOp) (m : List (String × Bool)) :
    items.foldl (initItemStep pfx kind) (ops, m) =
      (ops ++
        (items.filter
            (fun it => checkSizeLimit (encodeItem pfx kind it.Key it.Item))).map
          (fun it => FsOp.set (makeDocID pfx kind it.Key)
            (encodeItem pfx kind it.Key it.Item)),
        ((items.filter
            (fun it => checkSizeLimit (encodeItem pfx kind it.Key it.Item))).map
          (fun it => makeDocID pfx kind it.Key)).foldl
          (fun m i => mapSet m i false) m) := by
  induction items generalizing ops m with
  | nil => simp
  | cons it items ih =>
    rw [List.foldl_cons]
    by_cases h : checkSizeLimit (encodeItem pfx kind it.Key it.Item) = true
    · have hstep : initItemStep pfx kind (ops, m) it =
        (ops ++ [FsOp.set (makeDocID pfx kind it.Key)
            (encodeItem pfx kind it.Key it.Item)],
          mapSet m (makeDocID pfx kind it.Key) false) := by
        simp [initItemStep, h]
      rw [hstep, ih]
      simp [List.filter_cons, h, List.append_assoc]
    · have hstep : initItemStep pfx kind (ops, m) it = (ops, m) := by
        simp [initItemStep, h]
      rw [hstep, ih]
      simp only [List.filter_cons]
      rw [if_neg h]

theorem initWritePass_eq (pfx : String) (ds : List SerializedCollection)
    (ops : List FsOp) (m : List (String × Bool)) :
    initWritePass pfx (ops, m) ds =
      (ops ++ setsOf pfx ds,
        (writtenIDs pfx ds).foldl (fun m i => mapSet m i false) m) := by
  induction ds generalizing ops m with
  | nil => simp [initWritePass, setsOf, writtenIDs]
  | cons coll ds ih =>
    unfold initWritePass
    rw [List.foldl_cons, initItems_go]
    show initWritePass pfx _ ds = _
    rw [ih]
    unfold setsOf writtenIDs
    rw [List.flatMap_cons, List.flatMap_cons, List.foldl_append]
    simp [passingOf, List.append_assoc]

theorem initOps_eq (pfx : String) (s : Store) (ds : List SerializedCollection) :
    initOps pfx s ds =
      setsOf pfx ds ++ delOpsOf pfx s ds ++
        [FsOp.set (initedDocID pfx) (initedData pfx)] := by
  simp only [initOps, initWritePass_eq, delOpsOf, unusedFinal]
  simp

theorem mapGet_unusedFinal (pfx : String) (s : Store)
    (ds : List SerializedCollection) (j : String) :
    mapGet (unusedFinal pfx s ds) j =
      if j ∈ writtenIDs pfx ds then some false
      else if j ∈ collectedIDs pfx s ds then some true else none := by
  unfold unusedFinal
  rw [mapGet_foldl_mapSet, mapGet_readExisting]

/-! ## Key uniqueness is preserved everywhere -/

theorem keysNodup_filter {α : Type} {m : List (String × α)} (p : String × α → Bool)
    (h : keysNodup m) : keysNodup (m.filter p) :=
  ((List.filter_sublist m).map Prod.fst).nodup h

theorem keysNodup_mapSet {m : List (String × Bool)} {k : String} {b : Bool}
    (h : keysNodup m) : keysNodup (mapSet m k b) := by
  unfold mapSet keysNodup
  rw [List.map_cons, List.nodup_cons]
  refine ⟨?_, keysNodup_filter _ h⟩
  intro hmem
  obtain ⟨p, hp, hpk⟩ := List.mem_map.mp hmem
  have := (List.mem_filter.mp hp).2
  simp [hpk] at this

theorem keysNodup_foldl_mapSet (ids : List String) (b : Bool)
    {m : List (String × Bool)} (h : keysNodup m) :
    keysNodup (ids.foldl (fun m i => mapSet m i b) m) := by
  induction ids generalizing m with
  | nil => exact h
  | cons i ids ih => exact ih (keysNodup_mapSet h)

theorem keysNodup_unusedFinal (pfx : String) (s : Store)
    (ds : List SerializedCollection) : keysNodup (unusedFinal pfx s ds) := by
  unfold unusedFinal
  rw [readExistingDocIDs_eq]
  exact keysNodup_foldl_mapSet _ _ (keysNodup_foldl_mapSet _ _ (by simp [keysNodup]))

theorem keysNodup_setDoc {s : Store} {id : String} {d : Doc}
    (h : keysNodup s) : keysNodup (setDoc s id d) := by
  unfold setDoc deleteDoc keysNodup
  rw [List.map_cons, List.nodup_cons]
  refine ⟨?_, keysNodup_filter _ h⟩
  intro hmem
  obtain ⟨p, hp, hpk⟩ := List.mem_map.mp hmem
  have := (List.mem_filter.mp hp).2
  simp [hpk] at this

theorem keysNodup_applyOps {s : Store} (ops : List FsOp)
    (h : keysNodup s) : keysNodup (applyOps s ops) := by
  induction ops generalizing s with
  | nil => exact h
  | cons op ops ih =>
    rw [applyOps_cons]
    cases op with
    | set i d => exact ih (keysNodup_setDoc h)
    | del i => exact ih (keysNodup_filter _ h)

theorem keysNodup_Init (pfx : String) {s : Store} (ds : List SerializedCollection)
    (h : keysNodup s) : keysNodup (Init pfx s ds) :=
  keysNodup_applyOps _ h

/-! ## The set operations enqueued for one document ID -/

theorem filterMap_guard {α β : Type} (p : α → Bool) (f : α → β) (l : List α) :
    l.filterMap (fun x => if p x then some (f x) else none) = (l.filter p).map f := by
  induction l with
  | nil => rfl
  | cons a l ih =>
    by_cases h : p a = true <;>
      simp [List.filterMap_cons, List.filter_cons, h, ih]

theorem setsFor_append (l1 l2 : List FsOp) (id : String) :
    setsFor (l1 ++ l2) id = setsFor l1 id ++ setsFor l2 id :=
  List.filterMap_append l1 l2 _

theorem setsOf_cons (pfx : String) (coll : SerializedCollection)
    (ds : List SerializedCollection) :
    setsOf pfx (coll :: ds) =
      ((passingOf pfx coll).map (fun it =>
        FsOp.set (makeDocID pfx coll.Kind it.Key)
          (encodeItem pfx coll.Kind it.Key it.Item))) ++ setsOf pfx ds :=
  List.flatMap_cons coll ds _

theorem setsFor_setsOf (pfx : String) (ds : List SerializedCollection) (id : String) :
    setsFor (setsOf pfx ds) id =
      ds.flatMap (fun coll =>
        ((passingOf pfx coll).filter
            (fun it => makeDocID pfx coll.Kind it.Key == id)).map
          (fun it => encodeItem pfx coll.Kind it.Key it.Item)) := by
  induction ds with
  | nil => rfl
  | cons coll ds ih =>
    rw [setsOf_cons, setsFor_append, ih, List.flatMap_cons]
    congr 1
    show List.filterMap _ (List.map _ _) = _
    rw [List.filterMap_map]
    exact filterMap_guard (fun it => makeDocID pfx coll.Kind it.Key == id)
      (fun it => encodeItem pfx coll.Kind it.Key it.Item) (passingOf pfx coll)

/-- Same-kind document IDs are injective in the key, with no
delimiter-freedom assumptions: the namespace part is identical. -/
theorem makeDocID_key_inj (pfx kind a b : String)
    (h : makeDocID pfx kind a = makeDocID pfx kind b) : a = b := by
  have hd := congrArg String.data h
  unfold makeDocID at hd
  rw [makeDocIDFromParts_data, makeDocIDFromParts_data] at hd
  by_cases hp : pfx = ""
  · rw [if_pos hp, if_pos hp] at hd
    exact String.ext (List.cons.injEq .. |>.mp (List.append_cancel_left hd)).2
  · rw [if_neg hp, if_neg hp] at hd
    have hd2 := (List.cons.injEq .. |>.mp (List.append_cancel_left hd)).2
    exact String.ext (List.cons.injEq .. |>.mp (List.append_cancel_left hd2)).2

theorem filter_key_singleton (l : List KeyedItem) (it : KeyedItem)
    (hn : (l.map KeyedItem.Key).Nodup) (hm : it ∈ l) :
    l.filter (fun x => x.Key == it.Key) = [it] := by
  induction l with
  | nil => simp at hm
  | cons a l ih =>
    rcases List.mem_cons.mp hm with h1 | h1
    · subst h1
      rw [List.filter_cons, if_pos (by simp)]
      have : l.filter (fun x => x.Key == it.Key) = [] := by
        rw [List.filter_eq_nil_iff]
        intro x hx hkx
        exact (List.nodup_cons.mp hn).1
          ((by simpa using hkx : x.Key = it.Key) ▸ List.mem_map.mpr ⟨x, hx, rfl⟩)
      rw [this]
    · have hne : ¬ (a.Key == it.Key) = true := by
        intro he
        exact (List.nodup_cons.mp hn).1
          ((by simpa using he : a.Key = it.Key) ▸ List.mem_map.mpr ⟨it, h1, rfl⟩)
      rw [List.filter_cons, if_neg hne]
      exact ih (List.nodup_cons.mp hn).2 h1

theorem flatMap_eq_of_unique {α : Type} (ds : List SerializedCollection)
    (g : SerializedCollection → List α) (coll : SerializedCollection) (out : List α)
    (hn : (ds.map SerializedCollection.Kind).Nodup) (hm : coll ∈ ds)
    (hcoll : g coll = out)
    (hother : ∀ c ∈ ds, c.Kind ≠ coll.Kind → g c = []) :
    ds.flatMap g = out := by
  induction ds with
  | nil => simp at hm
  | cons c ds ih =>
    rcases List.mem_cons.mp hm with h1 | h1
    · subst h1
      rw [List.flatMap_cons, hcoll]
      have hrest : ds.flatMap g = [] := by
        rw [List.flatMap_eq_nil_iff]
        intro x hx
        refine hother x (List.mem_cons.mpr (Or.inr hx)) ?_
        intro he
        exact (List.nodup_cons.mp hn).1 (he ▸ List.mem_map.mpr ⟨x, hx, rfl⟩)
      rw [hrest, List.append_nil]
    · have hne : c.Kind ≠ coll.Kind := by
        intro he
        exact (List.nodup_cons.mp hn).1 (he ▸ List.mem_map.mpr ⟨coll, h1, rfl⟩)
      rw [List.flatMap_cons, hother c (List.mem_cons_self c ds) hne, List.nil_append]
      exact ih (List.nodup_cons.mp hn).2 h1
        (fun c2 hc2 => hother c2 (List.mem_cons.mpr (Or.inr hc2)))

/-- The keys of the size-guard survivors of a collection are still
unique. -/
theorem passingOf_keys_nodup (pfx : String) (coll : SerializedCollection)
    (hn : (coll.Items.map KeyedItem.Key).Nodup) :
    ((passingOf pfx coll).map KeyedItem.Key).Nodup :=
  ((List.filter_sublist coll.Items).map KeyedItem.Key).nodup hn

/-- Under the dataset well-formedness assumptions, the set operations
for the document ID of a passing item are exactly one write of its
encoding. -/
theorem setsFor_of_passing (pfx : String) (ds : List SerializedCollection)
    (hD : GoodData ds) (coll : SerializedCollection) (hcoll : coll ∈ ds)
    (it : KeyedItem) (hit : it ∈ coll.Items)
    (hpass : checkSizeLimit (encodeItem pfx coll.Kind it.Key it.Item) = true) :
    setsFor (setsOf pfx ds) (makeDocID pfx coll.Kind it.Key) =
      [encodeItem pfx coll.Kind it.Key it.Item] := by
  obtain ⟨hkinds, hcolon, hinited, hitems⟩ := hD
  rw [setsFor_setsOf]
  apply flatMap_eq_of_unique ds _ coll _ hkinds hcoll
  · have hfe : (passingOf pfx coll).filter
        (fun x => makeDocID pfx coll.Kind x.Key == makeDocID pfx coll.Kind it.Key) =
        (passingOf pfx coll).filter (fun x => x.Key == it.Key) := by
      apply List.filter_congr
      intro x hx
      by_cases he : x.Key = it.Key
      · simp [he]
      · have : makeDocID pfx coll.Kind x.Key ≠ makeDocID pfx coll.Kind it.Key :=
          fun hh => he (makeDocID_key_inj pfx coll.Kind x.Key it.Key hh)
        simp [this, he]
    rw [hfe, filter_key_singleton (passingOf pfx coll) it
      (passingOf_keys_nodup pfx coll (hitems coll hcoll))
      (List.mem_filter.mpr ⟨hit, hpass⟩)]
    rfl
  · intro c hc hne
    have hfil : (passingOf pfx c).filter
        (fun x => makeDocID pfx c.Kind x.Key == makeDocID pfx coll.Kind it.Key) =
        [] := by
      rw [List.filter_eq_nil_iff]
      intro x hx hbe
      have heq : makeDocID pfx c.Kind x.Key = makeDocID pfx coll.Kind it.Key := by
        simpa using hbe
      exact hne (makeDocID_inj pfx c.Kind x.Key coll.Kind it.Key
        (hcolon c hc) (hcolon coll hcoll) heq).1
    rw [hfil, List.map_nil]

/-! ## The net effect of Init on each document -/

theorem setsOf_allSets (pfx : String) (ds : List SerializedCollection) :
    ∀ op ∈ setsOf pfx ds, ∃ i d, op = FsOp.set i d := by
  intro op hop
  obtain ⟨c, hc, hm⟩ := List.mem_flatMap.mp hop
  obtain ⟨it, hit, he⟩ := List.mem_map.mp hm
  exact ⟨_, _, he.symm⟩

theorem opsGet_delOpsOf (pfx : String) (s : Store) (ds : List SerializedCollection)
    (id : String) :
    opsGet (delOpsOf pfx s ds) id =
      if mapGet (unusedFinal pfx s ds) id = some true ∧ id ≠ initedDocID pfx
      then some none else none := by
  have h1 : delOpsOf pfx s ds =
      (((unusedFinal pfx s ds).filter
          (fun p => p.2 && p.1 != initedDocID pfx)).map Prod.fst).map FsOp.del := by
    unfold delOpsOf
    rw [List.map_map]
    rfl
  rw [h1, opsGet_map_del]
  by_cases h : mapGet (unusedFinal pfx s ds) id = some true ∧ id ≠ initedDocID pfx
  · rw [if_pos h]
    rw [if_pos ?_]
    obtain ⟨hm, hne⟩ := h
    exact List.mem_map.mpr ⟨(id, true),
      List.mem_filter.mpr ⟨mapGet_mem hm, by simp [hne]⟩, rfl⟩
  · rw [if_neg h]
    rw [if_neg ?_]
    intro hmem
    obtain ⟨p, hp, hpk⟩ := List.mem_map.mp hmem
    have hf := List.mem_filter.mp hp
    have hval : p.2 = true ∧ (p.1 != initedDocID pfx) = true := by
      simpa [Bool.and_eq_true] using hf.2
    apply h
    constructor
    · have hpe : p = (id, true) := by
        cases p with
        | mk a b =>
          cases hval.1
          cases hpk
          rfl
      exact mem_mapGet (keysNodup_unusedFinal pfx s ds) (hpe ▸ hf.1)
    · rw [← hpk]
      simpa using hval.2

theorem opsGet_initOps_inited (pfx : String) (s : Store)
    (ds : List SerializedCollection) :
    opsGet (initOps pfx s ds) (initedDocID pfx) = some (some (initedData pfx)) := by
  rw [initOps_eq, opsGet_append]
  have hone : opsGet [FsOp.set (initedDocID pfx) (initedData pfx)] (initedDocID pfx) =
      some (some (initedData pfx)) := by
    rw [opsGet_cons]
    simp [opsGet_nil, opEffect]
  rw [hone]

theorem opsGet_initOps (pfx : String) (s : Store) (ds : List SerializedCollection)
    (id : String) (hne : id ≠ initedDocID pfx) :
    opsGet (initOps pfx s ds) id =
      match opsGet (delOpsOf pfx s ds) id with
      | some r => some r
      | none => opsGet (setsOf pfx ds) id := by
  rw [initOps_eq, opsGet_append, opsGet_append]
  have hone : opsGet [FsOp.set (initedDocID pfx) (initedData pfx)] id = none := by
    rw [opsGet_cons]
    simp [opsGet_nil, opEffect]
    exact fun hh => absurd hh.symm hne
  rw [hone]

theorem init_getDoc_inited (pfx : String) (s : Store)
    (ds : List SerializedCollection) :
    getDoc (Init pfx s ds) (initedDocID pfx) = some (initedData pfx) := by
  show getDoc (applyOps s (initOps pfx s ds)) _ = _
  rw [getDoc_applyOps, opsGet_initOps_inited]
  rfl

/-- After Init, every size-guard-passing item of every supplied
collection is stored, encoded, under its document ID. -/
theorem init_getDoc_passing (pfx : String) (s : Store)
    (ds : List SerializedCollection) (hD : GoodData ds)
    (coll : SerializedCollection) (hcoll : coll ∈ ds)
    (it : KeyedItem) (hit : it ∈ coll.Items)
    (hpass : checkSizeLimit (encodeItem pfx coll.Kind it.Key it.Item) = true) :
    getDoc (Init pfx s ds) (makeDocID pfx coll.Kind it.Key) =
      some (encodeItem pfx coll.Kind it.Key it.Item) := by
  obtain ⟨hkinds, hcolon, hinited, hitems⟩ := hD
  have hne : makeDocID pfx coll.Kind it.Key ≠ initedDocID pfx :=
    makeDocID_ne_initedDocID pfx coll.Kind it.Key (hcolon coll hcoll)
      (hinited coll hcoll)
  show getDoc (applyOps s (initOps pfx s ds)) _ = _
  rw [getDoc_applyOps, opsGet_initOps pfx s ds _ hne]
  have hw : makeDocID pfx coll.Kind it.Key ∈ writtenIDs pfx ds :=
    List.mem_flatMap.mpr ⟨coll, hcoll,
      List.mem_map.mpr ⟨it, List.mem_filter.mpr ⟨hit, hpass⟩, rfl⟩⟩
  have hdel : opsGet (delOpsOf pfx s ds) (makeDocID pfx coll.Kind it.Key) = none := by
    rw [opsGet_delOpsOf]
    rw [if_neg ?_]
    intro hc
    rw [mapGet_unusedFinal, if_pos hw] at hc
    exact absurd hc.1 (by simp)
  have hsets : opsGet (setsOf pfx ds) (makeDocID pfx coll.Kind it.Key) =
      some (some (encodeItem pfx coll.Kind it.Key it.Item)) := by
    rw [opsGet_allSets _ _ (setsOf_allSets pfx ds),
      setsFor_of_passing pfx ds ⟨hkinds, hcolon, hinited, hitems⟩ coll hcoll it hit hpass]
    rfl
  rw [hdel, hsets]
  rfl

/-- After Init, every document whose namespace field matches one of the
supplied kinds is the encoding of a size-guard-passing item of that
kind's collection, stored under that item's document ID. -/
theorem init_getDoc_in_namespace (pfx : String) (s : Store)
    (ds : List SerializedCollection) (hW : keysNodup s) (hD : GoodData ds)
    (coll : SerializedCollection) (hcoll : coll ∈ ds) (id : String) (d : Doc)
    (hget : getDoc (Init pfx s ds) id = some d)
    (hns : nsFieldEq d (namespaceForKind pfx coll.Kind) = true) :
    ∃ it ∈ coll.Items,
      checkSizeLimit (encodeItem pfx coll.Kind it.Key it.Item) = true ∧
      id = makeDocID pfx coll.Kind it.Key ∧
      d = encodeItem pfx coll.Kind it.Key it.Item := by
  obtain ⟨hkinds, hcolon, hinited, hitems⟩ := hD
  have hget1 : (opsGet (initOps pfx s ds) id).getD (getDoc s id) = some d := by
    rw [← getDoc_applyOps]
    exact hget
  by_cases hid : id = initedDocID pfx
  · subst hid
    rw [opsGet_initOps_inited] at hget1
    have hd : initedData pfx = d := by simpa using hget1
    rw [← hd] at hns
    have hik : (initedKey pfx == namespaceForKind pfx coll.Kind) = true := hns
    have hkk : ("$inited" : String) = coll.Kind :=
      prefixedNamespace_inj pfx _ _ (by simpa using hik)
    exact absurd hkk.symm (hinited coll hcoll)
  · rw [opsGet_initOps pfx s ds _ hid] at hget1
    cases hdel : opsGet (delOpsOf pfx s ds) id with
    | some r =>
      rw [hdel] at hget1
      have hr : r = none := by
        rw [opsGet_delOpsOf] at hdel
        by_cases hc : mapGet (unusedFinal pfx s ds) id = some true ∧
            id ≠ initedDocID pfx
        · rw [if_pos hc] at hdel
          exact (Option.some.injEq .. |>.mp hdel).symm
        · rw [if_neg hc] at hdel
          exact absurd hdel (by simp)
      subst hr
      simp at hget1
    | none =>
      rw [hdel] at hget1
      have hget2 : (opsGet (setsOf pfx ds) id).getD (getDoc s id) = some d := hget1
      cases hsets : opsGet (setsOf pfx ds) id with
      | some r =>
        rw [hsets] at hget2
        have hrd : r = some d := by simpa using hget2
        subst hrd
        rw [opsGet_allSets _ _ (setsOf_allSets pfx ds)] at hsets
        obtain ⟨y, hy, hyr⟩ := Option.map_eq_some'.mp hsets
        have hyd : y = d := by simpa using hyr
        have hd_mem : d ∈ setsFor (setsOf pfx ds) id := by
          rw [← hyd]
          exact List.mem_of_mem_getLast? hy
        rw [setsFor_setsOf] at hd_mem
        obtain ⟨coll2, hcoll2, hmem2⟩ := List.mem_flatMap.mp hd_mem
        obtain ⟨it2, hit2, henc⟩ := List.mem_map.mp hmem2
        have hfil := List.mem_filter.mp hit2
        have hid2 : makeDocID pfx coll2.Kind it2.Key = id := by simpa using hfil.2
        have hnse : (namespaceForKind pfx coll2.Kind ==
            namespaceForKind pfx coll.Kind) = true := by
          rw [← henc] at hns
          exact hns
        have hkind : coll2.Kind = coll.Kind :=
          prefixedNamespace_inj pfx _ _ (by simpa using hnse)
        have hc2c : coll2 = coll :=
          List.inj_on_of_nodup_map hkinds hcoll2 hcoll hkind
        subst hc2c
        have hpassmem := List.mem_filter.mp hfil.1
        exact ⟨it2, hpassmem.1, hpassmem.2, hid2.symm, henc.symm⟩
      | none =>
        rw [hsets] at hget2
        have hsid : getDoc s id = some d := by simpa using hget2
        have hmem : (id, d) ∈ s := getDoc_mem hsid
        have hcol : id ∈ collectedIDs pfx s ds :=
          List.mem_flatMap.mpr ⟨coll, hcoll,
            List.mem_map.mpr ⟨(id, d), List.mem_filter.mpr ⟨hmem, hns⟩, rfl⟩⟩
        have hnw : id ∉ writtenIDs pfx ds := by
          intro hw
          obtain ⟨c3, hc3, hm3⟩ := List.mem_flatMap.mp hw
          obtain ⟨it3, hit3, hid3⟩ := List.mem_map.mp hm3
          have hin3 : encodeItem pfx c3.Kind it3.Key it3.Item ∈
              setsFor (setsOf pfx ds) id := by
            rw [setsFor_setsOf]
            exact List.mem_flatMap.mpr ⟨c3, hc3,
              List.mem_map.mpr ⟨it3, List.mem_filter.mpr ⟨hit3, by simp [hid3]⟩, rfl⟩⟩
          rw [opsGet_allSets _ _ (setsOf_allSets pfx ds)] at hsets
          have hnil : setsFor (setsOf pfx ds) id = [] := by
            cases hgl : (setsFor (setsOf pfx ds) id).getLast? with
            | some y =>
              rw [hgl] at hsets
              simp at hsets
            | none => exact List.getLast?_eq_none_iff.mp hgl
          rw [hnil] at hin3
          simp at hin3
        have htrue : mapGet (unusedFinal pfx s ds) id = some true := by
          rw [mapGet_unusedFinal, if_neg hnw, if_pos hcol]
        rw [opsGet_delOpsOf, if_pos ⟨htrue, hid⟩] at hdel
        exact absurd hdel (by simp)

theorem setsFor_ne_nil_of_written (pfx : String) (ds : List SerializedCollection)
    (id : String) (hw : id ∈ writtenIDs pfx ds) :
    setsFor (setsOf pfx ds) id ≠ [] := by
  obtain ⟨c3, hc3, hm3⟩ := List.mem_flatMap.mp hw
  obtain ⟨it3, hit3, hid3⟩ := List.mem_map.mp hm3
  intro hnil
  have hin3 : encodeItem pfx c3.Kind it3.Key it3.Item ∈
      setsFor (setsOf pfx ds) id := by
    rw [setsFor_setsOf]
    exact List.mem_flatMap.mpr ⟨c3, hc3,
      List.mem_map.mpr ⟨it3, List.mem_filter.mpr ⟨hit3, by simp [hid3]⟩, rfl⟩⟩
  rw [hnil] at hin3
  simp at hin3

/-- C2: after Init, the documents carrying a supplied kind's namespace
are exactly the size-guard-passing items of that kind's collection in
the new dataset (every passing item is stored under its ID, everything
else in the namespace is gone), and the store reports initialized. -/
theorem init_reconciliation (pfx : String) (s : Store)
    (ds : List SerializedCollection) (hW : keysNodup s) (hD : GoodData ds)
    (coll : SerializedCollection) (hcoll : coll ∈ ds) :
    (∀ it ∈ coll.Items,
      checkSizeLimit (encodeItem pfx coll.Kind it.Key it.Item) = true →
      getDoc (Init pfx s ds) (makeDocID pfx coll.Kind it.Key) =
        some (encodeItem pfx coll.Kind it.Key it.Item)) ∧
    (∀ id d, getDoc (Init pfx s ds) id = some d →
      nsFieldEq d (namespaceForKind pfx coll.Kind) = true →
      ∃ it ∈ coll.Items,
        checkSizeLimit (encodeItem pfx coll.Kind it.Key it.Item) = true ∧
        id = makeDocID pfx coll.Kind it.Key ∧
        d = encodeItem pfx coll.Kind it.Key it.Item) ∧
    IsInitialized true pfx (Init pfx s ds) = true := by
  refine ⟨fun it hit hp => init_getDoc_passing pfx s ds hD coll hcoll it hit hp,
    fun id d hg hns => init_getDoc_in_namespace pfx s ds hW hD coll hcoll id d hg hns,
    ?_⟩
  unfold IsInitialized docRefGet
  rw [init_getDoc_inited]
  rfl

/-- Witness for C2: stored keys A, B, C; new dataset A (version 2) and
D; afterwards A and D are stored as given and the sentinel exists. -/
theorem init_reconciliation_witness :
    (keysNodup demoStore ∧ GoodData demoData) ∧
    getDoc (Init "" demoStore demoData) (makeDocID "" "features" "A") =
      some (encodeItem "" "features" "A" ⟨2, "a2"⟩) ∧
    getDoc (Init "" demoStore demoData) (makeDocID "" "features" "D") =
      some (encodeItem "" "features" "D" ⟨1, "d"⟩) ∧
    IsInitialized true "" (Init "" demoStore demoData) = true :=
  ⟨⟨by decide, by decide⟩,
    (init_reconciliation "" demoStore demoData (by decide) (by decide) demoColl
        (List.mem_singleton.mpr rfl)).1 demoItemA
      (List.mem_cons_self demoItemA [demoItemD]) (by decide),
    (init_reconciliation "" demoStore demoData (by decide) (by decide) demoColl
        (List.mem_singleton.mpr rfl)).1 demoItemD
      (List.mem_cons.mpr (Or.inr (List.mem_singleton.mpr rfl))) (by decide),
    (init_reconciliation "" demoStore demoData (by decide) (by decide) demoColl
        (List.mem_singleton.mpr rfl)).2.2⟩

/-- C6: an incoming item rejected by the size guard is excluded from
the write set and its identity (assuming any prior document for it
carries the kind's namespace field, as every document written by this
store does) is deleted: after Init the key is absent. -/
theorem init_oversized_item_deleted (pfx : String) (s : Store)
    (ds : List SerializedCollection) (hW : keysNodup s) (hD : GoodData ds)
    (coll : SerializedCollection) (hcoll : coll ∈ ds)
    (it : KeyedItem) (hit : it ∈ coll.Items)
    (hfail : checkSizeLimit (encodeItem pfx coll.Kind it.Key it.Item) = false)
    (hprior : ∀ d, getDoc s (makeDocID pfx coll.Kind it.Key) = some d →
      nsFieldEq d (namespaceForKind pfx coll.Kind) = true) :
    getDoc (Init pfx s ds) (makeDocID pfx coll.Kind it.Key) = none := by
  obtain ⟨hkinds, hcolon, hinited, hitems⟩ := hD
  have hnosets : setsFor (setsOf pfx ds) (makeDocID pfx coll.Kind it.Key) = [] := by
    rw [setsFor_setsOf, List.flatMap_eq_nil_iff]
    intro c hc
    by_cases hk : c.Kind = coll.Kind
    · have hcc : c = coll := List.inj_on_of_nodup_map hkinds hc hcoll hk
      subst hcc
      have hfil : (passingOf pfx c).filter
          (fun x => makeDocID pfx c.Kind x.Key == makeDocID pfx c.Kind it.Key) =
          [] := by
        rw [List.filter_eq_nil_iff]
        intro x hx hbe
        have hkey : x.Key = it.Key :=
          makeDocID_key_inj pfx c.Kind x.Key it.Key (by simpa using hbe)
        have hxmem := (List.mem_filter.mp hx).1
        have hxit : x = it :=
          List.inj_on_of_nodup_map (hitems c hc) hxmem hit hkey
        have hxpass := (List.mem_filter.mp hx).2
        rw [hxit, hfail] at hxpass
        simp at hxpass
      rw [hfil, List.map_nil]
    · have hfil : (passingOf pfx c).filter
          (fun x => makeDocID pfx c.Kind x.Key == makeDocID pfx coll.Kind it.Key) =
          [] := by
        rw [List.filter_eq_nil_iff]
        intro x hx hbe
        exact hk (makeDocID_inj pfx c.Kind x.Key coll.Kind it.Key
          (hcolon c hc) (hcolon coll hcoll) (by simpa using hbe)).1
      rw [hfil, List.map_nil]
  have hne : makeDocID pfx coll.Kind it.Key ≠ initedDocID pfx :=
    makeDocID_ne_initedDocID pfx coll.Kind it.Key (hcolon coll hcoll)
      (hinited coll hcoll)
  have hsets : opsGet (setsOf pfx ds) (makeDocID pfx coll.Kind it.Key) = none := by
    rw [opsGet_allSets _ _ (setsOf_allSets pfx ds), hnosets]
    rfl
  have hnw : makeDocID pfx coll.Kind it.Key ∉ writtenIDs pfx ds :=
    fun hw => setsFor_ne_nil_of_written pfx ds _ hw hnosets
  show getDoc (applyOps s (initOps pfx s ds)) _ = _
  rw [getDoc_applyOps, opsGet_initOps pfx s ds _ hne]
  cases hsid : getDoc s (makeDocID pfx coll.Kind it.Key) with
  | some d =>
    have hcol : makeDocID pfx coll.Kind it.Key ∈ collectedIDs pfx s ds :=
      List.mem_flatMap.mpr ⟨coll, hcoll,
        List.mem_map.mpr ⟨(makeDocID pfx coll.Kind it.Key, d),
          List.mem_filter.mpr ⟨getDoc_mem hsid, hprior d hsid⟩, rfl⟩⟩
    have htrue : mapGet (unusedFinal pfx s ds)
        (makeDocID pfx coll.Kind it.Key) = some true := by
      rw [mapGet_unusedFinal, if_neg hnw, if_pos hcol]
    have hdel : opsGet (delOpsOf pfx s ds)
        (makeDocID pfx coll.Kind it.Key) = some none := by
      rw [opsGet_delOpsOf, if_pos ⟨htrue, hne⟩]
    rw [hdel]
    rfl
  | none =>
    have hncol : makeDocID pfx coll.Kind it.Key ∉ collectedIDs pfx s ds := by
      intro hcol
      obtain ⟨c, hc, hm⟩ := List.mem_flatMap.mp hcol
      obtain ⟨p, hp, hpk⟩ := List.mem_map.mp hm
      have hpmem := (List.mem_filter.mp hp).1
      have hpe : p = (makeDocID pfx coll.Kind it.Key, p.2) := by
        cases p
        cases hpk
        rfl
      have hg : getDoc s (makeDocID pfx coll.Kind it.Key) = some p.2 :=
        mem_getDoc hW (hpe ▸ hpmem)
      rw [hsid] at hg
      simp at hg
    have hmg : mapGet (unusedFinal pfx s ds)
        (makeDocID pfx coll.Kind it.Key) = none := by
      rw [mapGet_unusedFinal, if_neg hnw, if_neg hncol]
    have hdel : opsGet (delOpsOf pfx s ds)
        (makeDocID pfx coll.Kind it.Key) = none := by
      rw [opsGet_delOpsOf]
      rw [if_neg ?_]
      intro hc
      rw [hmg] at hc
      exact absurd hc.1 (by simp)
    rw [hdel, hsets]
    rfl

/-- Witness for C6: a stored document for key "big" whose replacement
in the dataset is oversized is gone after Init. -/
theorem init_oversized_item_deleted_witness :
    checkSizeLimit (encodeItem "" "features" "big"
      ⟨2, String.mk (List.replicate 900001 'a')⟩) = false ∧
    getDoc
      (Init ""
        [(makeDocID "" "features" "big", encodeItem "" "features" "big" ⟨1, "old"⟩)]
        [⟨"features", [⟨"big", ⟨2, String.mk (List.replicate 900001 'a')⟩⟩]⟩])
      (makeDocID "" "features" "big") = none := by
  have hfail : checkSizeLimit (encodeItem "" "features" "big"
      ⟨2, String.mk (List.replicate 900001 'a')⟩) = false := by
    unfold checkSizeLimit
    rw [show estimatedDocSize (encodeItem "" "features" "big"
        ⟨2, String.mk (List.replicate 900001 'a')⟩) = 42 + 900001 from
      estimated_encode_big 2 900001]
    simp [firestoreMaxDocSize]
  refine ⟨hfail, ?_⟩
  apply init_oversized_item_deleted ""
    [(makeDocID "" "features" "big", encodeItem "" "features" "big" ⟨1, "old"⟩)]
    [⟨"features", [⟨"big", ⟨2, String.mk (List.replicate 900001 'a')⟩⟩]⟩]
    (by decide) ⟨by decide, by decide, by decide, by decide⟩
    ⟨"features", [⟨"big", ⟨2, String.mk (List.replicate 900001 'a')⟩⟩]⟩
    (List.mem_singleton.mpr rfl)
    ⟨"big", ⟨2, String.mk (List.replicate 900001 'a')⟩⟩
    (List.mem_singleton.mpr rfl) hfail
  intro d h
  have h2 : (some (encodeItem "" "features" "big" ⟨1, "old"⟩) : Option Doc) =
      some d := h
  have h3 : encodeItem "" "features" "big" ⟨1, "old"⟩ = d := by
    simpa using h2
  rw [← h3]
  decide

theorem applyOps_pointwise_id (base : Store) (ops : List FsOp) (s2 : Store)
    (hbase : ∀ j, getDoc s2 j = getDoc base j)
    (hops : ∀ op ∈ ops, ∃ i d, op = FsOp.set i d ∧ getDoc base i = some d) :
    ∀ j, getDoc (applyOps s2 ops) j = getDoc base j := by
  induction ops generalizing s2 with
  | nil => exact hbase
  | cons op ops ih =>
    obtain ⟨i, d, rfl, hid⟩ := hops op (List.mem_cons_self op ops)
    rw [applyOps_cons]
    apply ih
    · intro j
      rw [show applyOp s2 (FsOp.set i d) = setDoc s2 i d from rfl, getDoc_setDoc]
      by_cases h : j = i
      · subst h
        rw [if_pos rfl]
        exact hid.symm
      · rw [if_neg h]
        exact hbase j
    · exact fun o ho => hops o (List.mem_cons.mpr (Or.inr ho))

/-- C8: re-running Init with the identical dataset enqueues no delete
operation and leaves every stored document unchanged (including the
readiness sentinel). -/
theorem init_idempotent (pfx : String) (s : Store)
    (ds : List SerializedCollection) (hW : keysNodup s) (hD : GoodData ds) :
    (∀ op ∈ initOps pfx (Init pfx s ds) ds, ∀ i, op ≠ FsOp.del i) ∧
    (∀ id, getDoc (Init pfx (Init pfx s ds) ds) id =
      getDoc (Init pfx s ds) id) := by
  have hW1 : keysNodup (Init pfx s ds) := keysNodup_Init pfx ds hW
  have hdels : delOpsOf pfx (Init pfx s ds) ds = [] := by
    unfold delOpsOf
    have hfil : (unusedFinal pfx (Init pfx s ds) ds).filter
        (fun p => p.2 && p.1 != initedDocID pfx) = [] := by
      rw [List.filter_eq_nil_iff]
      intro p hp hq
      have hval : p.2 = true ∧ (p.1 != initedDocID pfx) = true := by
        simpa [Bool.and_eq_true] using hq
      have hmg : mapGet (unusedFinal pfx (Init pfx s ds) ds) p.1 = some p.2 :=
        mem_mapGet (keysNodup_unusedFinal pfx (Init pfx s ds) ds)
          ((Prod.mk.eta (p := p)) ▸ hp)
      rw [hval.1, mapGet_unusedFinal] at hmg
      by_cases hw : p.1 ∈ writtenIDs pfx ds
      · rw [if_pos hw] at hmg
        simp at hmg
      · rw [if_neg hw] at hmg
        by_cases hcolp : p.1 ∈ collectedIDs pfx (Init pfx s ds) ds
        · obtain ⟨c, hc, hm⟩ := List.mem_flatMap.mp hcolp
          obtain ⟨q, hqf, hqk⟩ := List.mem_map.mp hm
          have hqmem := (List.mem_filter.mp hqf).1
          have hqns := (List.mem_filter.mp hqf).2
          have hgd : getDoc (Init pfx s ds) q.1 = some q.2 :=
            mem_getDoc hW1 ((Prod.mk.eta (p := q)) ▸ hqmem)
          obtain ⟨it, hitmem, hitpass, hiteq, hdeq⟩ :=
            init_getDoc_in_namespace pfx s ds hW hD c hc q.1 q.2 hgd hqns
          apply hw
          rw [← hqk, hiteq]
          exact List.mem_flatMap.mpr ⟨c, hc,
            List.mem_map.mpr ⟨it, List.mem_filter.mpr ⟨hitmem, hitpass⟩, rfl⟩⟩
        · rw [if_neg hcolp] at hmg
          simp at hmg
    rw [hfil]
    rfl
  have hops2 : initOps pfx (Init pfx s ds) ds =
      setsOf pfx ds ++ [FsOp.set (initedDocID pfx) (initedData pfx)] := by
    rw [initOps_eq, hdels]
    simp
  constructor
  · intro op hop i
    rw [hops2] at hop
    rcases List.mem_append.mp hop with h1 | h1
    · obtain ⟨a, b, rfl⟩ := setsOf_allSets pfx ds op h1
      simp
    · rw [List.mem_singleton.mp h1]
      simp
  · intro id
    show getDoc (applyOps (Init pfx s ds) (initOps pfx (Init pfx s ds) ds)) id = _
    rw [hops2]
    refine applyOps_pointwise_id (Init pfx s ds) _ (Init pfx s ds)
      (fun j => rfl) ?_ id
    intro op hop
    rcases List.mem_append.mp hop with h1 | h1
    · obtain ⟨c, hc, hm⟩ := List.mem_flatMap.mp h1
      obtain ⟨it, hit, he⟩ := List.mem_map.mp hm
      have hfil := List.mem_filter.mp hit
      exact ⟨makeDocID pfx c.Kind it.Key, encodeItem pfx c.Kind it.Key it.Item,
        he.symm, init_getDoc_passing pfx s ds hD c hc it hfil.1 hfil.2⟩
    · rw [List.mem_singleton.mp h1]
      exact ⟨initedDocID pfx, initedData pfx, rfl, init_getDoc_inited pfx s ds⟩

/-- Witness for C8 at the concrete fixture dataset. -/
theorem init_idempotent_witness :
    (keysNodup demoStore ∧ GoodData demoData) ∧
    getDoc (Init "" (Init "" demoStore demoData) demoData)
        (makeDocID "" "features" "A") =
      getDoc (Init "" demoStore demoData) (makeDocID "" "features" "A") ∧
    getDoc (Init "" (Init "" demoStore demoData) demoData)
        (makeDocID "" "features" "B") =
      getDoc (Init "" demoStore demoData) (makeDocID "" "features" "B") :=
  ⟨⟨by decide, by decide⟩,
    (init_idempotent "" demoStore demoData (by decide) (by decide)).2
      (makeDocID "" "features" "A"),
    (init_idempotent "" demoStore demoData (by decide) (by decide)).2
      (makeDocID "" "features" "B")⟩

end LDFirestore
